import Mathlib

/-!
Verification development for the Kruskal-Wallis H test calculator
(src/main.py).  The statistical core of the program is the call chain
main -> calculate_kruskal_wallis -> scipy.stats.kruskal together with
pandas Series.rank (average method) and DataFrame.groupby('Group').mean().
Observation values are modelled over an arbitrary decidable linear order
(the rationals model finite doubles; an order with a top element models an
input containing +infinity); group names are modelled over an arbitrary
decidable linear order as well (the program uses strings, which pandas
groupby sorts lexicographically); ranks and statistics are rationals, and
the chi-square survival function chi2.sf is an explicit function parameter
sf.
-/

set_option linter.unusedSectionVars false

namespace KW

/-- Error outcomes of the computation.  invalidInput models the rejections in
main (fewer than 2 non-empty groups, or an empty group) together with the
scipy rejection of fewer than two samples; degenerateInput models the scipy
ValueError raised when the tie correction factor is zero (every pooled value
identical). -/
inductive KWError where
  | invalidInput : KWError
  | degenerateInput : KWError
  deriving DecidableEq, Repr

variable {α : Type} [LinearOrder α] {β : Type} [LinearOrder β]

/-- Number of pooled observations strictly smaller than the value v. -/
def countLT (xs : List α) (v : α) : ℕ :=
  (xs.filter (fun u => decide (u < v))).length

/-- Number of pooled observations equal to the value v (its multiplicity). -/
def countEQ (xs : List α) (v : α) : ℕ :=
  (xs.filter (fun u => decide (u = v))).length

/-- Average-method rank of the value v within the pooled list xs, as assigned
by pandas Series.rank() and scipy.stats.rankdata (method "average"): the
number of strictly smaller values plus half of (multiplicity + 1); tied
values thus share the mean of the positional ranks their run occupies. -/
def rankOf (xs : List α) (v : α) : ℚ :=
  (countLT xs v : ℚ) + ((countEQ xs v : ℚ) + 1) / 2

/-- Ranks of the pooled list, one per observation in pooled order
(scipy.stats.rankdata / the Rank column of the ranks DataFrame). -/
def rankdata (xs : List α) : List ℚ :=
  xs.map (rankOf xs)

/-- Tie census term of scipy.stats.tiecorrect: the sum over the distinct
pooled values of t^3 - t, where t is the multiplicity of the value. -/
def tieTerm (xs : List α) : ℚ :=
  (xs.dedup.map (fun v => (countEQ xs v : ℚ) ^ 3 - (countEQ xs v : ℚ))).sum

/-- Tie correction factor of scipy.stats.tiecorrect:
C = 1 - (sum of t^3 - t) / (N^3 - N). -/
def tieCorrect (xs : List α) : ℚ :=
  1 - tieTerm xs / ((xs.length : ℚ) ^ 3 - (xs.length : ℚ))

/-- Rank sum R_i of one group, its members ranked within the pooled list. -/
def groupRankSum (pool : List α) (g : List α) : ℚ :=
  (g.map (rankOf pool)).sum

/-- Sum over the samples of R_i^2 / n_i (scipy's ssbn accumulator). -/
def ssbn (samples : List (List α)) : ℚ :=
  (samples.map (fun g => groupRankSum samples.flatten g ^ 2 / (g.length : ℚ))).sum

/-- Raw (uncorrected) Kruskal-Wallis statistic computed by scipy from the
pooled rank sums: 12 / (N (N + 1)) * ssbn - 3 (N + 1). -/
def hraw (samples : List (List α)) : ℚ :=
  12 / ((samples.flatten.length : ℚ) * ((samples.flatten.length : ℚ) + 1)) * ssbn samples
    - 3 * ((samples.flatten.length : ℚ) + 1)

/-- Embedding of scipy.stats.kruskal: reject fewer than two samples, rank the
pooled data with the average method, reject a zero tie correction factor,
and otherwise return the tie-corrected statistic H = hraw / C together with
the p-value sf H (k - 1) delegated to the chi-square survival function sf. -/
def kruskal (sf : ℚ → ℤ → ℚ) (samples : List (List α)) : Except KWError (ℚ × ℚ) :=
  if samples.length < 2 then .error .invalidInput
  else if tieCorrect samples.flatten = 0 then .error .degenerateInput
  else
    let h := hraw samples / tieCorrect samples.flatten
    .ok (h, sf h ((samples.length : ℤ) - 1))

/-- Embedding of line 166 of src/main.py: the non-empty groups, in order. -/
def validGroups (group_data : List (List α)) : List (List α) :=
  group_data.filter (fun g => decide (0 < g.length))

/-- Embedding of line 167 of src/main.py: the names at the indices of the
non-empty groups, in order. -/
def validNames (group_names : List β) (group_data : List (List α)) : List β :=
  ((group_data.zip group_names).filter (fun p => decide (0 < p.1.length))).map Prod.snd

/-- Rows of the ranks DataFrame (lines 180-186 of src/main.py): one
(group name, rank) row per pooled observation, in pooled order. -/
def groupRows (vgs : List (List α)) (vnames : List β) : List (β × ℚ) :=
  ((vgs.zip vnames).map (fun p => p.1.map (fun v => (p.2, rankOf vgs.flatten v)))).flatten

/-- Ascending sort on group names, the key order used by pandas groupby. -/
def sortKeys (l : List β) : List β :=
  List.insertionSort (fun a b => a ≤ b) l

/-- Arithmetic mean of a list of rationals. -/
def meanOf (l : List ℚ) : ℚ := l.sum / (l.length : ℚ)

/-- Embedding of ranks.groupby('Group')['Rank'].mean() (line 187 of
src/main.py): one (name, mean rank) entry per distinct group name, the names
sorted ascending as pandas groupby sorts its keys. -/
def meanRanks (rows : List (β × ℚ)) : List (β × ℚ) :=
  (sortKeys (rows.map Prod.fst).dedup).map
    (fun nm => (nm, meanOf ((rows.filter (fun r => decide (r.1 = nm))).map Prod.snd)))

/-- Result record returned by calculate_kruskal_wallis (lines 192-199 of
src/main.py); the all_data table is the rows list the mean ranks are built
from and is not duplicated here. -/
structure KWResult (β : Type) where
  h_stat : ℚ
  p_val : ℚ
  df : ℤ
  significant : Bool
  mean_ranks : List (β × ℚ)
  deriving DecidableEq, Repr

/-- Embedding of calculate_kruskal_wallis (lines 164-199 of src/main.py):
drop empty groups, call scipy.stats.kruskal on the remaining ones (an
exception it raises propagates), and package H, p, df = k - 1,
significant = p < alpha, and the groupby mean ranks. -/
def calculate_kruskal_wallis (sf : ℚ → ℤ → ℚ) (alpha : ℚ)
    (group_data : List (List α)) (group_names : List β) :
    Except KWError (KWResult β) :=
  match kruskal sf (validGroups group_data) with
  | .error e => .error e
  | .ok hp =>
      .ok ⟨hp.1, hp.2, ((validGroups group_data).length : ℤ) - 1,
        decide (hp.2 < alpha),
        meanRanks (groupRows (validGroups group_data) (validNames group_names group_data))⟩

/-- Embedding of the Run Analysis handler in main (lines 140-158 of
src/main.py): the two validation checks (fewer than 2 non-empty groups; any
empty group) followed by the call to calculate_kruskal_wallis. -/
def run_analysis (sf : ℚ → ℤ → ℚ) (alpha : ℚ)
    (group_data : List (List α)) (group_names : List β) :
    Except KWError (KWResult β) :=
  if (group_data.filter (fun g => decide (0 < g.length))).length < 2 then
    .error .invalidInput
  else if group_data.any (fun g => decide (g.length = 0)) then
    .error .invalidInput
  else calculate_kruskal_wallis sf alpha group_data group_names

/-- Classical untied Kruskal-Wallis statistic, written from the spec text of
P1: H = (12 / (N (N + 1))) * sum over groups of R_i^2 / n_i - 3 (N + 1),
with R_i the rank sum of group i within the pool and n_i its size. -/
def classicalH (samples : List (List α)) : ℚ :=
  12 / ((samples.flatten.length : ℚ) * ((samples.flatten.length : ℚ) + 1)) *
      (samples.map (fun g => groupRankSum samples.flatten g ^ 2 / (g.length : ℚ))).sum
    - 3 * ((samples.flatten.length : ℚ) + 1)

/-- Constant chi-square survival-function stand-in used by concrete witnesses
(the program delegates p = chi2.sf(H, df) to scipy, modelled by sf). -/
def sfZero : ℚ → ℤ → ℚ := fun _ _ => 0

/-- Comparison weight used to decompose average ranks for the rank-sum
invariant: 1 for a strictly smaller pooled value, 1/2 for an equal one,
0 for a strictly larger one. -/
def cmpWeight (u v : α) : ℚ := if u < v then 1 else if u = v then 1/2 else 0

/-- Pooled values in ascending order (the sort performed inside
scipy.stats.rankdata before positional ranks are assigned). -/
def sortValues (xs : List α) : List α := List.insertionSort (fun a b => a ≤ b) xs

/-! Basic facts about countEQ, dedup and the tie correction factor. -/

theorem countEQ_eq_count (xs : List α) (v : α) : countEQ xs v = xs.count v := by
  rw [countEQ, List.count, List.countP_eq_length_filter]
  congr 1

theorem countEQ_pos_of_mem {xs : List α} {v : α} (h : v ∈ xs) : 0 < countEQ xs v := by
  rw [countEQ_eq_count]
  exact List.count_pos_iff.mpr h

theorem countEQ_eq_one_of_nodup {xs : List α} (hnd : xs.Nodup) {v : α} (h : v ∈ xs) :
    countEQ xs v = 1 := by
  have h1 : countEQ xs v ≤ 1 := by
    rw [countEQ_eq_count]
    exact List.nodup_iff_count_le_one.mp hnd v
  have h2 := countEQ_pos_of_mem h
  omega

theorem tieTerm_of_nodup {xs : List α} (hnd : xs.Nodup) : tieTerm xs = 0 := by
  apply List.sum_eq_zero
  intro x hx
  simp only [List.mem_map] at hx
  obtain ⟨v, hv, rfl⟩ := hx
  rw [countEQ_eq_one_of_nodup hnd (List.mem_dedup.mp hv)]
  norm_num

theorem tieCorrect_of_nodup {xs : List α} (hnd : xs.Nodup) : tieCorrect xs = 1 := by
  rw [tieCorrect, tieTerm_of_nodup hnd, zero_div, sub_zero]

theorem dedup_replicate (c : α) : ∀ (n : ℕ), 0 < n → (List.replicate n c).dedup = [c] := by
  intro n
  induction n with
  | zero => omega
  | succ m ih =>
      intro _
      rw [List.replicate_succ]
      rcases Nat.eq_zero_or_pos m with hm | hm
      · subst hm
        simp
      · rw [List.dedup_cons_of_mem (by simp [List.mem_replicate]; omega)]
        exact ih hm

theorem countEQ_all_eq {xs : List α} {c : α} (h : ∀ v ∈ xs, v = c) :
    countEQ xs c = xs.length := by
  rw [countEQ, List.filter_eq_self.mpr]
  intro a ha
  simpa using h a ha

theorem tieCorrect_all_eq {xs : List α} {c : α} (h2 : 2 ≤ xs.length)
    (hall : ∀ v ∈ xs, v = c) : tieCorrect xs = 0 := by
  have hrep : xs = List.replicate xs.length c :=
    List.eq_replicate_iff.mpr ⟨rfl, hall⟩
  have hd : xs.dedup = [c] := by
    calc xs.dedup = (List.replicate xs.length c).dedup := by rw [← hrep]
    _ = [c] := dedup_replicate c xs.length (by omega)
  have hcnt : countEQ xs c = xs.length := countEQ_all_eq hall
  have hden : ((xs.length : ℚ)) ^ 3 - (xs.length : ℚ) ≠ 0 := by
    have hx : (2 : ℚ) ≤ (xs.length : ℚ) := by exact_mod_cast h2
    have hpos : (0 : ℚ) < (xs.length : ℚ) * (((xs.length : ℚ) - 1) * ((xs.length : ℚ) + 1)) :=
      mul_pos (by linarith) (mul_pos (by linarith) (by linarith))
    have heq : ((xs.length : ℚ)) ^ 3 - (xs.length : ℚ)
        = (xs.length : ℚ) * (((xs.length : ℚ) - 1) * ((xs.length : ℚ) + 1)) := by ring
    rw [heq]
    exact ne_of_gt hpos
  rw [tieCorrect, tieTerm, hd]
  simp only [List.map_cons, List.map_nil, List.sum_cons, List.sum_nil, add_zero, hcnt]
  rw [div_self hden]
  ring

theorem length_le_flatten_length {L : List (List α)} (h : ∀ g ∈ L, g ≠ []) :
    L.length ≤ L.flatten.length := by
  induction L with
  | nil => simp
  | cons g gs ih =>
      simp only [List.flatten_cons, List.length_append, List.length_cons]
      have hg : 0 < g.length := List.length_pos.mpr (h g (by simp))
      have := ih (fun x hx => h x (by simp [hx]))
      omega

theorem validGroups_mem_ne_nil {gd : List (List α)} {g : List α}
    (h : g ∈ validGroups gd) : g ≠ [] := by
  have := (List.mem_filter.mp h).2
  simp only [decide_eq_true_eq] at this
  exact List.length_pos.mp this

theorem validGroups_flatten_two_le {gd : List (List α)}
    (h2 : 2 ≤ (validGroups gd).length) : 2 ≤ (validGroups gd).flatten.length :=
  le_trans h2 (length_le_flatten_length (fun _ hg => validGroups_mem_ne_nil hg))

theorem hraw_eq_classicalH (samples : List (List α)) : hraw samples = classicalH samples := rfl

/-! Alignment of the retained groups with the retained names. -/

theorem zip_map_fst_snd {γ δ : Type} (l : List (γ × δ)) :
    (l.map Prod.fst).zip (l.map Prod.snd) = l := by
  have h := List.zip_unzip l
  rwa [List.unzip_eq_map] at h

theorem validGroups_eq_map_fst (gd : List (List α)) (names : List β)
    (hlen : names.length = gd.length) :
    validGroups gd = ((gd.zip names).filter (fun p => decide (0 < p.1.length))).map Prod.fst := by
  induction gd generalizing names with
  | nil => simp [validGroups]
  | cons g gs ih =>
      cases names with
      | nil => exact absurd hlen (by simp)
      | cons n ns =>
          have h' : ns.length = gs.length := by simpa using hlen
          by_cases hg : 0 < g.length
          · simp only [validGroups, List.zip_cons_cons, List.filter_cons]
            rw [if_pos (by simpa using hg), if_pos (show decide (0 < (g, n).1.length) = true by
              simpa using hg), List.map_cons]
            exact congrArg (List.cons g) (ih ns h')
          · simp [validGroups, List.filter_cons, hg]
            exact ih ns h'

theorem zip_valid_eq (gd : List (List α)) (names : List β)
    (hlen : names.length = gd.length) :
    (validGroups gd).zip (validNames names gd)
      = (gd.zip names).filter (fun p => decide (0 < p.1.length)) := by
  rw [validGroups_eq_map_fst gd names hlen, validNames]
  exact zip_map_fst_snd _

theorem validGroups_idem (gd : List (List α)) : validGroups (validGroups gd) = validGroups gd :=
  List.filter_eq_self.mpr (fun a ha => (List.mem_filter.mp ha).2)

theorem validNames_of_valid (gd : List (List α)) (names : List β)
    (hlen : names.length = gd.length) :
    validNames (validNames names gd) (validGroups gd) = validNames names gd := by
  show (((validGroups gd).zip (validNames names gd)).filter
      (fun p => decide (0 < p.1.length))).map Prod.snd = _
  rw [zip_valid_eq gd names hlen,
    List.filter_eq_self.mpr (fun a ha => (List.mem_filter.mp ha).2)]
  rfl

/-! Unfolding helpers for kruskal and calculate_kruskal_wallis. -/

theorem kruskal_ok (sf : ℚ → ℤ → ℚ) {samples : List (List α)}
    (h2 : 2 ≤ samples.length) (hC : tieCorrect samples.flatten ≠ 0) :
    kruskal sf samples = .ok (hraw samples / tieCorrect samples.flatten,
      sf (hraw samples / tieCorrect samples.flatten) ((samples.length : ℤ) - 1)) := by
  rw [kruskal, if_neg (by omega), if_neg hC]

theorem calculate_error (sf : ℚ → ℤ → ℚ) (alpha : ℚ) (gd : List (List α)) (names : List β)
    {e : KWError} (h : kruskal sf (validGroups gd) = .error e) :
    calculate_kruskal_wallis sf alpha gd names = .error e := by
  unfold calculate_kruskal_wallis
  rw [h]

theorem calculate_ok (sf : ℚ → ℤ → ℚ) (alpha : ℚ) (gd : List (List α)) (names : List β)
    (h2 : 2 ≤ (validGroups gd).length) (hC : tieCorrect (validGroups gd).flatten ≠ 0) :
    calculate_kruskal_wallis sf alpha gd names = .ok
      ⟨hraw (validGroups gd) / tieCorrect (validGroups gd).flatten,
        sf (hraw (validGroups gd) / tieCorrect (validGroups gd).flatten)
          (((validGroups gd).length : ℤ) - 1),
        ((validGroups gd).length : ℤ) - 1,
        decide (sf (hraw (validGroups gd) / tieCorrect (validGroups gd).flatten)
          (((validGroups gd).length : ℤ) - 1) < alpha),
        meanRanks (groupRows (validGroups gd) (validNames names gd))⟩ := by
  unfold calculate_kruskal_wallis
  rw [kruskal_ok sf h2 hC]

/-- Claim C6: for every input with fewer than 2 non-empty groups, the test
fails with InvalidInput, surfaced by the validation in main before any
ranking begins; no numeric result is produced. -/
theorem claim_C6 (sf : ℚ → ℤ → ℚ) (alpha : ℚ) (gd : List (List α)) (names : List β)
    (h : (validGroups gd).length < 2) :
    run_analysis sf alpha gd names = .error .invalidInput := by
  have h' : (gd.filter (fun g => decide (0 < g.length))).length < 2 := h
  unfold run_analysis
  rw [if_pos h']

/-- Witness for claim C6 at a concrete input with a single non-empty group. -/
theorem claim_C6_witness :
    (validGroups [[(1 : ℚ), 2, 3], []]).length < 2 ∧
    run_analysis sfZero (1/20) [[(1 : ℚ), 2, 3], []] [0, 1] = .error .invalidInput :=
  ⟨by decide, claim_C6 sfZero (1/20) _ _ (by decide)⟩

/-- Claim C10: when some groups are empty and at least 2 are non-empty, the
retained names stay aligned index-for-index with the retained groups: the
zip of valid_groups with valid_names is exactly the (group, name) pairs
whose group is non-empty, so every observation keeps the caller's label. -/
theorem claim_C10 (gd : List (List α)) (names : List β)
    (hlen : names.length = gd.length)
    (hempty : ∃ g ∈ gd, g.length = 0)
    (h2 : 2 ≤ (validGroups gd).length) :
    (validGroups gd).zip (validNames names gd)
      = (gd.zip names).filter (fun p => decide (0 < p.1.length)) :=
  zip_valid_eq gd names hlen

/-- Witness for claim C10 at a concrete input with a dropped middle group. -/
theorem claim_C10_witness :
    ([0, 1, 2] : List ℕ).length = ([[(1 : ℚ)], [], [2, 3]] : List (List ℚ)).length ∧
    (∃ g ∈ ([[(1 : ℚ)], [], [2, 3]] : List (List ℚ)), g.length = 0) ∧
    2 ≤ (validGroups [[(1 : ℚ)], [], [2, 3]]).length ∧
    (validGroups [[(1 : ℚ)], [], [2, 3]]).zip (validNames [0, 1, 2] [[(1 : ℚ)], [], [2, 3]])
      = ([[(1 : ℚ)], [], [2, 3]].zip [0, 1, 2]).filter (fun p => decide (0 < p.1.length)) :=
  ⟨by decide, by decide, by decide, claim_C10 _ _ (by decide) (by decide) (by decide)⟩

/-- Claim C4: when every pooled observation is tied to every other (so the
tie correction factor is 0), the computation fails with DegenerateInput and
never returns a numeric H. -/
theorem claim_C4 (sf : ℚ → ℤ → ℚ) (alpha : ℚ) (gd : List (List α)) (names : List β)
    (c : α) (h2 : 2 ≤ (validGroups gd).length)
    (hall : ∀ v ∈ (validGroups gd).flatten, v = c) :
    calculate_kruskal_wallis sf alpha gd names = .error .degenerateInput := by
  have hC0 : tieCorrect (validGroups gd).flatten = 0 :=
    tieCorrect_all_eq (validGroups_flatten_two_le h2) hall
  apply calculate_error
  rw [kruskal, if_neg (by omega), if_pos hC0]

/-- Witness for claim C4 at the all-identical input [[5, 5], [5]]. -/
theorem claim_C4_witness :
    2 ≤ (validGroups [[(5 : ℚ), 5], [5]]).length ∧
    (∀ v ∈ (validGroups [[(5 : ℚ), 5], [5]]).flatten, v = 5) ∧
    calculate_kruskal_wallis sfZero (1/20) [[(5 : ℚ), 5], [5]] [0, 1]
      = .error .degenerateInput :=
  ⟨by decide, by decide, claim_C4 sfZero (1/20) _ _ 5 (by decide) (by decide)⟩

/-- Claim C1: on a valid input whose pooled values are pairwise distinct, the
tie correction factor is 1 and the returned H equals the classical untied
formula (12 / (N (N + 1))) * sum of R_i^2 / n_i - 3 (N + 1). -/
theorem claim_C1 (sf : ℚ → ℤ → ℚ) (alpha : ℚ) (gd : List (List α)) (names : List β)
    (h2 : 2 ≤ (validGroups gd).length)
    (hnd : (validGroups gd).flatten.Nodup) :
    tieCorrect (validGroups gd).flatten = 1 ∧
    ∃ r, calculate_kruskal_wallis sf alpha gd names = .ok r ∧
      r.h_stat = classicalH (validGroups gd) := by
  have hC : tieCorrect (validGroups gd).flatten = 1 := tieCorrect_of_nodup hnd
  refine ⟨hC, ⟨_, calculate_ok sf alpha gd names h2 (by rw [hC]; norm_num), ?_⟩⟩
  show hraw (validGroups gd) / tieCorrect (validGroups gd).flatten = classicalH (validGroups gd)
  rw [hC, div_one, hraw_eq_classicalH]

/-- Witness for claim C1 at the tie-free input [[1, 2], [3, 4]]. -/
theorem claim_C1_witness :
    2 ≤ (validGroups [[(1 : ℚ), 2], [3, 4]]).length ∧
    (validGroups [[(1 : ℚ), 2], [3, 4]]).flatten.Nodup ∧
    (tieCorrect (validGroups [[(1 : ℚ), 2], [3, 4]]).flatten = 1 ∧
      ∃ r, calculate_kruskal_wallis sfZero (1/20) [[(1 : ℚ), 2], [3, 4]] [0, 1] = .ok r ∧
        r.h_stat = classicalH (validGroups [[(1 : ℚ), 2], [3, 4]])) :=
  ⟨by decide, by decide, claim_C1 sfZero (1/20) _ _ (by decide) (by decide)⟩

/-- Claim C7: with empty groups present but at least 2 non-empty ones (and a
non-degenerate pool), calculate_kruskal_wallis computes exactly what it
computes on the non-empty groups alone, and the returned degrees of freedom
equal k - 1 where k counts only the non-empty groups. -/
theorem claim_C7 (sf : ℚ → ℤ → ℚ) (alpha : ℚ) (gd : List (List α)) (names : List β)
    (hlen : names.length = gd.length)
    (hempty : ∃ g ∈ gd, g.length = 0)
    (h2 : 2 ≤ (validGroups gd).length)
    (hC : tieCorrect (validGroups gd).flatten ≠ 0) :
    calculate_kruskal_wallis sf alpha gd names
        = calculate_kruskal_wallis sf alpha (validGroups gd) (validNames names gd) ∧
    ∃ r, calculate_kruskal_wallis sf alpha gd names = .ok r ∧
      r.df = ((validGroups gd).length : ℤ) - 1 := by
  constructor
  · unfold calculate_kruskal_wallis
    rw [validGroups_idem, validNames_of_valid gd names hlen]
  · exact ⟨_, calculate_ok sf alpha gd names h2 hC, rfl⟩

/-- Witness for claim C7 at an input whose middle group is empty. -/
theorem claim_C7_witness :
    ([0, 1, 2] : List ℕ).length = ([[(1 : ℚ), 2], [], [3, 4]] : List (List ℚ)).length ∧
    (∃ g ∈ ([[(1 : ℚ), 2], [], [3, 4]] : List (List ℚ)), g.length = 0) ∧
    2 ≤ (validGroups [[(1 : ℚ), 2], [], [3, 4]]).length ∧
    tieCorrect (validGroups [[(1 : ℚ), 2], [], [3, 4]]).flatten ≠ 0 ∧
    (calculate_kruskal_wallis sfZero (1/20) [[(1 : ℚ), 2], [], [3, 4]] [0, 1, 2]
        = calculate_kruskal_wallis sfZero (1/20)
            (validGroups [[(1 : ℚ), 2], [], [3, 4]])
            (validNames [0, 1, 2] [[(1 : ℚ), 2], [], [3, 4]]) ∧
      ∃ r, calculate_kruskal_wallis sfZero (1/20) [[(1 : ℚ), 2], [], [3, 4]] [0, 1, 2] = .ok r ∧
        r.df = ((validGroups [[(1 : ℚ), 2], [], [3, 4]]).length : ℤ) - 1) :=
  ⟨by decide, by decide, by decide,
    by rw [tieCorrect_of_nodup (by decide : (validGroups
        [[(1 : ℚ), 2], [], [3, 4]]).flatten.Nodup)]; norm_num,
    claim_C7 sfZero (1/20) _ _ (by decide) (by decide) (by decide)
      (by rw [tieCorrect_of_nodup (by decide : (validGroups
        [[(1 : ℚ), 2], [], [3, 4]]).flatten.Nodup)]; norm_num)⟩

/-! Rank-sum invariant: the ranks of the pooled list always sum to
N (N + 1) / 2, ties or not. -/

theorem sum_map_const_q {γ : Type} (l : List γ) (c : ℚ) :
    (l.map (fun _ => c)).sum = (l.length : ℚ) * c := by
  induction l with
  | nil => simp
  | cons x xs ih =>
      simp only [List.map_cons, List.sum_cons, List.length_cons, ih]
      push_cast
      ring

theorem cmpWeight_add_symm (u v : α) : cmpWeight u v + cmpWeight v u = 1 := by
  unfold cmpWeight
  rcases lt_trichotomy u v with h | h | h
  · rw [if_pos h, if_neg (lt_asymm h), if_neg h.ne']
    norm_num
  · subst h
    rw [if_neg (lt_irrefl u), if_pos rfl]
    norm_num
  · rw [if_neg (lt_asymm h), if_neg h.ne', if_pos h]
    norm_num

theorem countLT_cons (u : α) (xs : List α) (v : α) :
    countLT (u :: xs) v = countLT xs v + (if u < v then 1 else 0) := by
  by_cases h : u < v
  · simp [countLT, List.filter_cons, h]
  · simp [countLT, List.filter_cons, h]

theorem countEQ_cons (u : α) (xs : List α) (v : α) :
    countEQ (u :: xs) v = countEQ xs v + (if u = v then 1 else 0) := by
  by_cases h : u = v
  · simp [countEQ, List.filter_cons, h]
  · simp [countEQ, List.filter_cons, h]

theorem cmpWeight_sum (xs : List α) (v : α) :
    (xs.map (fun u => cmpWeight u v)).sum = (countLT xs v : ℚ) + (countEQ xs v : ℚ) / 2 := by
  induction xs with
  | nil => simp [countLT, countEQ]
  | cons u xs ih =>
      simp only [List.map_cons, List.sum_cons, ih, countLT_cons, countEQ_cons]
      rcases lt_trichotomy u v with h | h | h
      · rw [cmpWeight, if_pos h]
        simp only [h, h.ne, if_true, if_false]
        push_cast
        ring
      · subst h
        rw [cmpWeight, if_neg (lt_irrefl u), if_pos rfl]
        simp only [lt_irrefl u, if_false, if_true]
        push_cast
        ring
      · rw [cmpWeight, if_neg (lt_asymm h), if_neg h.ne']
        simp only [not_lt_of_gt h, h.ne', if_false]
        push_cast
        ring

theorem rankOf_decomp (xs : List α) (v : α) :
    rankOf xs v = 1 / 2 + (xs.map (fun u => cmpWeight u v)).sum := by
  rw [rankOf, cmpWeight_sum]
  ring

theorem sum_sum_swap {γ : Type} (xs ys : List γ) (f : γ → γ → ℚ) :
    (xs.map (fun v => (ys.map (fun u => f u v)).sum)).sum
      = (ys.map (fun u => (xs.map (fun v => f u v)).sum)).sum := by
  induction xs with
  | nil => simp [sum_map_const_q]
  | cons x xs ih =>
      simp only [List.map_cons, List.sum_cons, ih]
      rw [← List.sum_map_add]

theorem sum_rankdata (xs : List α) :
    (rankdata xs).sum = (xs.length : ℚ) * ((xs.length : ℚ) + 1) / 2 := by
  have h1 : xs.map (rankOf xs)
      = xs.map (fun v => 1 / 2 + (xs.map (fun u => cmpWeight u v)).sum) :=
    List.map_congr_left (fun v _ => rankOf_decomp xs v)
  rw [rankdata, h1, List.sum_map_add, sum_map_const_q]
  have hS : (xs.map (fun v => (xs.map (fun u => cmpWeight u v)).sum)).sum * 2
      = (xs.length : ℚ) * (xs.length : ℚ) := by
    have hswap := sum_sum_swap xs xs (fun u v => cmpWeight u v)
    have hmerge : (xs.map (fun v => (xs.map (fun u => cmpWeight u v)).sum)).sum
          + (xs.map (fun v => (xs.map (fun u => cmpWeight v u)).sum)).sum
        = (xs.map (fun v => (xs.map (fun u => cmpWeight u v + cmpWeight v u)).sum)).sum := by
      rw [← List.sum_map_add]
      congr 1
      apply List.map_congr_left
      intro v _
      rw [← List.sum_map_add]
    have hone : (xs.map (fun v => (xs.map (fun u => cmpWeight u v + cmpWeight v u)).sum)).sum
        = (xs.length : ℚ) * (xs.length : ℚ) := by
      have hinner : ∀ v ∈ xs, (xs.map (fun u => cmpWeight u v + cmpWeight v u)).sum
          = (xs.length : ℚ) := by
        intro v _
        have := List.map_congr_left (l := xs)
          (f := fun u => cmpWeight u v + cmpWeight v u) (g := fun _ => (1 : ℚ))
          (fun u _ => cmpWeight_add_symm u v)
        rw [this, sum_map_const_q, mul_one]
      rw [List.map_congr_left hinner, sum_map_const_q]
    calc (xs.map (fun v => (xs.map (fun u => cmpWeight u v)).sum)).sum * 2
        = (xs.map (fun v => (xs.map (fun u => cmpWeight u v)).sum)).sum
          + (xs.map (fun v => (xs.map (fun u => cmpWeight v u)).sum)).sum := by
          rw [← hswap]; ring
      _ = (xs.length : ℚ) * (xs.length : ℚ) := by rw [hmerge, hone]
  linear_combination hS / 2

theorem sum_groupRankSums (L : List (List α)) :
    (L.map (fun g => groupRankSum L.flatten g)).sum = (rankdata L.flatten).sum := by
  rw [rankdata, List.map_flatten, List.sum_flatten, List.map_map]
  rfl

/-- Claim C3: for every valid input, the sum over the admitted groups of the
group rank sums equals N (N + 1) / 2 exactly, regardless of ties. -/
theorem claim_C3 (gd : List (List α)) (h2 : 2 ≤ (validGroups gd).length) :
    ((validGroups gd).map (fun g => groupRankSum (validGroups gd).flatten g)).sum
      = ((validGroups gd).flatten.length : ℚ)
          * (((validGroups gd).flatten.length : ℚ) + 1) / 2 := by
  rw [sum_groupRankSums, sum_rankdata]

/-- Witness for claim C3 at a concrete input containing a tie. -/
theorem claim_C3_witness :
    2 ≤ (validGroups [[(1 : ℚ), 2, 2], [3]]).length ∧
    ((validGroups [[(1 : ℚ), 2, 2], [3]]).map
        (fun g => groupRankSum (validGroups [[(1 : ℚ), 2, 2], [3]]).flatten g)).sum
      = ((validGroups [[(1 : ℚ), 2, 2], [3]]).flatten.length : ℚ)
          * (((validGroups [[(1 : ℚ), 2, 2], [3]]).flatten.length : ℚ) + 1) / 2 :=
  ⟨by decide, claim_C3 _ (by decide)⟩

/-! Mid-rank rule: in the sorted pool, the occurrences of a value form the
contiguous run of positions countLT .. countLT + countEQ - 1, and the
assigned rank is the arithmetic mean of the positional ranks of that run. -/

theorem decide_lt_mono (v : α) :
    ∀ u w : α, u ≤ w → decide (w < v) = true → decide (u < v) = true := by
  intro u w huw h
  simp only [decide_eq_true_eq] at h ⊢
  exact lt_of_le_of_lt huw h

theorem decide_le_mono (v : α) :
    ∀ u w : α, u ≤ w → decide (w ≤ v) = true → decide (u ≤ v) = true := by
  intro u w huw h
  simp only [decide_eq_true_eq] at h ⊢
  exact le_trans huw h

theorem sorted_get_filter (p : α → Bool)
    (hmono : ∀ u w : α, u ≤ w → p w = true → p u = true) :
    ∀ (s : List α), List.Sorted (fun a b : α => a ≤ b) s → ∀ i, ∀ hi : i < s.length,
      (p (s.get ⟨i, hi⟩) = true ↔ i < (s.filter p).length) := by
  intro s
  induction s with
  | nil => intro _ i hi; exact absurd hi (Nat.not_lt_zero i)
  | cons a t ih =>
      intro hs i hi
      have hat : ∀ b ∈ t, a ≤ b := List.rel_of_sorted_cons hs
      have hst : List.Sorted (fun x y : α => x ≤ y) t := hs.of_cons
      cases i with
      | zero =>
          show p a = true ↔ 0 < ((a :: t).filter p).length
          rw [List.filter_cons]
          constructor
          · intro hp
            rw [if_pos hp]
            simp
          · intro hl
            by_contra hp
            have hp' : p a = false := by
              cases hpa : p a
              · rfl
              · exact absurd hpa hp
            rw [if_neg (by simp [hp'])] at hl
            obtain ⟨b, hb⟩ := List.exists_mem_of_length_pos hl
            exact hp (hmono a b (hat b (List.mem_filter.mp hb).1) (List.mem_filter.mp hb).2)
      | succ n =>
          have hn : n < t.length := by simpa using hi
          show p (t.get ⟨n, hn⟩) = true ↔ n + 1 < ((a :: t).filter p).length
          cases hpa : p a
          · have ht0 : ∀ b ∈ t, p b = false := by
              intro b hb
              cases hpb : p b
              · rfl
              · exact absurd (hmono a b (hat b hb) hpb) (by simp [hpa])
            have hfa : (a :: t).filter p = t.filter p := by
              simp [List.filter_cons, hpa]
            have hft : t.filter p = [] :=
              List.filter_eq_nil_iff.mpr (fun b hb => by simp [ht0 b hb])
            rw [hfa, hft]
            rw [ht0 _ (t.get_mem n hn)]
            simp
          · have hfa : (a :: t).filter p = a :: t.filter p := by
              simp [List.filter_cons, hpa]
            rw [hfa]
            have h := ih hst n hn
            constructor
            · intro hp
              have := h.mp hp
              simp only [List.length_cons]
              omega
            · intro hl
              refine h.mpr ?_
              simp only [List.length_cons] at hl
              omega

theorem filter_le_length (xs : List α) (v : α) :
    (xs.filter (fun u => decide (u ≤ v))).length = countLT xs v + countEQ xs v := by
  induction xs with
  | nil => simp [countLT, countEQ]
  | cons u xs ih =>
      rw [List.filter_cons, countLT_cons, countEQ_cons]
      rcases lt_trichotomy u v with h | h | h
      · rw [if_pos (by simpa using le_of_lt h), if_pos h, if_neg h.ne]
        simp only [List.length_cons, ih]
        omega
      · subst h
        rw [if_pos (by simp), if_neg (lt_irrefl u), if_pos rfl]
        simp only [List.length_cons, ih]
        omega
      · rw [if_neg (by simpa using not_le_of_gt h), if_neg (lt_asymm h), if_neg h.ne']
        simp only [ih]
        omega

theorem countLT_perm {xs ys : List α} (h : List.Perm xs ys) (v : α) :
    countLT xs v = countLT ys v :=
  (h.filter _).length_eq

theorem countEQ_perm {xs ys : List α} (h : List.Perm xs ys) (v : α) :
    countEQ xs v = countEQ ys v :=
  (h.filter _).length_eq

theorem sortValues_perm (xs : List α) : List.Perm (sortValues xs) xs :=
  List.perm_insertionSort _ _

theorem sortValues_sorted (xs : List α) :
    List.Sorted (fun a b : α => a ≤ b) (sortValues xs) :=
  List.sorted_insertionSort _ _

theorem sorted_run (s : List α) (hs : List.Sorted (fun a b : α => a ≤ b) s) (v : α)
    (i : ℕ) (hi : i < s.length) :
    s.get ⟨i, hi⟩ = v ↔ (countLT s v ≤ i ∧ i < countLT s v + countEQ s v) := by
  have h1 := sorted_get_filter (fun u => decide (u < v)) (decide_lt_mono v) s hs i hi
  have h2 := sorted_get_filter (fun u => decide (u ≤ v)) (decide_le_mono v) s hs i hi
  simp only [decide_eq_true_eq] at h1 h2
  have h1' : s.get ⟨i, hi⟩ < v ↔ i < countLT s v := h1
  have h2' : s.get ⟨i, hi⟩ ≤ v ↔ i < countLT s v + countEQ s v := by
    rw [← filter_le_length]
    exact h2
  constructor
  · intro he
    rw [he] at h1' h2'
    exact ⟨not_lt.mp (fun hl => absurd (h1'.mpr hl) (lt_irrefl v)), h2'.mp le_rfl⟩
  · rintro ⟨hge, hlt⟩
    have hnlt : ¬ s.get ⟨i, hi⟩ < v := fun hl => by
      have := h1'.mp hl
      omega
    have hle : s.get ⟨i, hi⟩ ≤ v := h2'.mpr hlt
    exact le_antisymm hle (not_lt.mp hnlt)

theorem sum_range_cast (n : ℕ) :
    ((List.range n).map (fun (j : ℕ) => (j : ℚ))).sum = (n : ℚ) * ((n : ℚ) - 1) / 2 := by
  induction n with
  | zero => simp
  | succ m ih =>
      rw [List.range_succ, List.map_append, List.sum_append]
      simp only [List.map_cons, List.map_nil, List.sum_cons, List.sum_nil, ih]
      push_cast
      ring

/-- Claim C2: in the pooled ranking, the occurrences of a value v form the
maximal run of positions countLT v .. countLT v + countEQ v - 1 of the
sorted pool, and every member of the run receives the arithmetic mean of the
positional ranks (1-based) the run spans. -/
theorem claim_C2 (xs : List α) (v : α) (hv : v ∈ xs) :
    (∀ i, ∀ hi : i < (sortValues xs).length,
        ((sortValues xs).get ⟨i, hi⟩ = v
          ↔ (countLT xs v ≤ i ∧ i < countLT xs v + countEQ xs v))) ∧
    rankOf xs v
      = ((List.range (countEQ xs v)).map
            (fun (j : ℕ) => ((countLT xs v : ℚ) + 1 + (j : ℚ)))).sum / (countEQ xs v : ℚ) := by
  constructor
  · intro i hi
    have h := sorted_run (sortValues xs) (sortValues_sorted xs) v i hi
    rwa [countLT_perm (sortValues_perm xs) v, countEQ_perm (sortValues_perm xs) v] at h
  · have ht : 0 < countEQ xs v := countEQ_pos_of_mem hv
    have htq : (0 : ℚ) < (countEQ xs v : ℚ) := by exact_mod_cast ht
    have hsplit : ((List.range (countEQ xs v)).map
          (fun (j : ℕ) => ((countLT xs v : ℚ) + 1 + (j : ℚ)))).sum
        = (countEQ xs v : ℚ) * ((countLT xs v : ℚ) + 1)
            + (countEQ xs v : ℚ) * ((countEQ xs v : ℚ) - 1) / 2 := by
      rw [List.sum_map_add, sum_map_const_q, sum_range_cast, List.length_range]
    rw [hsplit, rankOf]
    field_simp
    ring

/-- Witness for claim C2 at the spec's example pool [5, 7, 7, 9] and value 7
(whose run spans positions 2-3, mean rank 5/2). -/
theorem claim_C2_witness :
    (7 : ℚ) ∈ [(5 : ℚ), 7, 7, 9] ∧
    ((∀ i, ∀ hi : i < (sortValues [(5 : ℚ), 7, 7, 9]).length,
        ((sortValues [(5 : ℚ), 7, 7, 9]).get ⟨i, hi⟩ = 7
          ↔ (countLT [(5 : ℚ), 7, 7, 9] 7 ≤ i
              ∧ i < countLT [(5 : ℚ), 7, 7, 9] 7 + countEQ [(5 : ℚ), 7, 7, 9] 7))) ∧
      rankOf [(5 : ℚ), 7, 7, 9] 7
        = ((List.range (countEQ [(5 : ℚ), 7, 7, 9] 7)).map
              (fun (j : ℕ) => ((countLT [(5 : ℚ), 7, 7, 9] 7 : ℚ) + 1 + (j : ℚ)))).sum
            / (countEQ [(5 : ℚ), 7, 7, 9] 7 : ℚ)) :=
  ⟨by decide, claim_C2 _ 7 (by decide)⟩

/-! Permutation invariance of the statistic and of the groupby table. -/

theorem flatten_perm {γ : Type} {L M : List (List γ)} (h : List.Perm L M) :
    List.Perm L.flatten M.flatten := by
  have := h.flatMap_right id
  simpa using this

theorem rankOf_congr {xs ys : List α} (h : List.Perm xs ys) : rankOf xs = rankOf ys := by
  funext v
  simp only [rankOf, countLT_perm h v, countEQ_perm h v]

theorem tieTerm_perm {xs ys : List α} (h : List.Perm xs ys) : tieTerm xs = tieTerm ys := by
  rw [tieTerm, tieTerm]
  have hf : (fun v => (countEQ xs v : ℚ) ^ 3 - (countEQ xs v : ℚ))
      = (fun v => (countEQ ys v : ℚ) ^ 3 - (countEQ ys v : ℚ)) := by
    funext v
    rw [countEQ_perm h v]
  rw [hf]
  exact (h.dedup.map _).sum_eq

theorem tieCorrect_perm {xs ys : List α} (h : List.Perm xs ys) :
    tieCorrect xs = tieCorrect ys := by
  rw [tieCorrect, tieCorrect, tieTerm_perm h, h.length_eq]

theorem ssbn_perm {L M : List (List α)} (h : List.Perm L M) : ssbn L = ssbn M := by
  rw [ssbn, ssbn]
  have hr : rankOf L.flatten = rankOf M.flatten := rankOf_congr (flatten_perm h)
  have hf : (fun g : List α => groupRankSum L.flatten g ^ 2 / (g.length : ℚ))
      = (fun g : List α => groupRankSum M.flatten g ^ 2 / (g.length : ℚ)) := by
    funext g
    rw [groupRankSum, groupRankSum, hr]
  rw [hf]
  exact (h.map _).sum_eq

theorem hraw_perm {L M : List (List α)} (h : List.Perm L M) : hraw L = hraw M := by
  rw [hraw, hraw, ssbn_perm h, (flatten_perm h).length_eq]

theorem kruskal_perm (sf : ℚ → ℤ → ℚ) {L M : List (List α)} (h : List.Perm L M) :
    kruskal sf L = kruskal sf M := by
  rw [kruskal, kruskal, h.length_eq, tieCorrect_perm (flatten_perm h), hraw_perm h]

theorem sortKeys_eq_of_perm {l l' : List β} (h : List.Perm l l') :
    sortKeys l = sortKeys l' := by
  rw [sortKeys, sortKeys]
  haveI : IsAntisymm β (fun a b : β => a ≤ b) := ⟨fun a b => le_antisymm⟩
  exact List.eq_of_perm_of_sorted
    (((List.perm_insertionSort _ l).trans h).trans (List.perm_insertionSort _ l').symm)
    (List.sorted_insertionSort _ l) (List.sorted_insertionSort _ l')

theorem meanRanks_perm {r s : List (β × ℚ)} (h : List.Perm r s) :
    meanRanks r = meanRanks s := by
  rw [meanRanks, meanRanks]
  have hsort : sortKeys (r.map Prod.fst).dedup = sortKeys (s.map Prod.fst).dedup :=
    sortKeys_eq_of_perm ((h.map Prod.fst).dedup)
  rw [hsort]
  apply List.map_congr_left
  intro nm _
  have hfil := h.filter (fun q => decide (q.1 = nm))
  rw [meanOf, meanOf, (hfil.map Prod.snd).sum_eq, (hfil.map Prod.snd).length_eq]

theorem groupRows_perm {vgs vgs' : List (List α)} {vn vn' : List β}
    (hz : List.Perm (vgs'.zip vn') (vgs.zip vn)) (hp : List.Perm vgs' vgs) :
    List.Perm (groupRows vgs' vn') (groupRows vgs vn) := by
  rw [groupRows, groupRows]
  have hr : rankOf vgs'.flatten = rankOf vgs.flatten := rankOf_congr (flatten_perm hp)
  have hf : (fun p : List α × β => p.1.map (fun v => (p.2, rankOf vgs'.flatten v)))
      = (fun p : List α × β => p.1.map (fun v => (p.2, rankOf vgs.flatten v))) := by
    funext p
    rw [hr]
  rw [hf]
  exact flatten_perm (hz.map _)

/-- Claim C8 amended: permuting the (group, name) pairs of the input leaves
the whole result unchanged — H, df, p, significance, and also the group
summaries, because pandas groupby lists them in sorted-name order
independent of the input order (so they are the identity permutation of the
original summaries, not the corresponding one). -/
theorem claim_C8_amended (sf : ℚ → ℤ → ℚ) (alpha : ℚ)
    (gd gd' : List (List α)) (names names' : List β)
    (hlen : names.length = gd.length) (hlen' : names'.length = gd'.length)
    (hperm : List.Perm (gd'.zip names') (gd.zip names)) :
    calculate_kruskal_wallis sf alpha gd' names'
      = calculate_kruskal_wallis sf alpha gd names := by
  have hZ : List.Perm ((gd'.zip names').filter (fun p => decide (0 < p.1.length)))
      ((gd.zip names).filter (fun p => decide (0 < p.1.length))) := hperm.filter _
  have hvg : List.Perm (validGroups gd') (validGroups gd) := by
    rw [validGroups_eq_map_fst gd' names' hlen', validGroups_eq_map_fst gd names hlen]
    exact hZ.map _
  have hrows : List.Perm (groupRows (validGroups gd') (validNames names' gd'))
      (groupRows (validGroups gd) (validNames names gd)) := by
    refine groupRows_perm ?_ hvg
    rw [zip_valid_eq gd' names' hlen', zip_valid_eq gd names hlen]
    exact hZ
  have hmr := meanRanks_perm hrows
  unfold calculate_kruskal_wallis
  rw [kruskal_perm sf hvg, hvg.length_eq, hmr]

/-- Witness for the amended claim C8: swapping the two (group, name) pairs
leaves the result of calculate_kruskal_wallis unchanged. -/
theorem claim_C8_amended_witness :
    ([2, 1] : List ℕ).length = ([[(1 : ℚ), 2], [3, 4]] : List (List ℚ)).length ∧
    ([1, 2] : List ℕ).length = ([[(3 : ℚ), 4], [1, 2]] : List (List ℚ)).length ∧
    List.Perm ([[(3 : ℚ), 4], [1, 2]].zip [1, 2]) ([[(1 : ℚ), 2], [3, 4]].zip [2, 1]) ∧
    calculate_kruskal_wallis sfZero (1/20) [[(3 : ℚ), 4], [1, 2]] [1, 2]
      = calculate_kruskal_wallis sfZero (1/20) [[(1 : ℚ), 2], [3, 4]] [2, 1] :=
  ⟨by decide, by decide, by decide,
    claim_C8_amended sfZero (1/20) _ _ _ _ (by decide) (by decide) (by decide)⟩

/-- Counterexample to claim C8 as stated: swapping the two (group, name)
pairs of [[1,2]:2, [3,4]:1] leaves the summary list [(1, 7/2), (2, 3/2)]
unchanged (groupby sorts by name), whereas the claimed corresponding
permutation of the original summaries would be [(2, 3/2), (1, 7/2)]. -/
theorem claim_C8_counterexample :
    Except.map (fun r => r.mean_ranks)
        (calculate_kruskal_wallis sfZero (1/20) [[(3 : ℚ), 4], [1, 2]] [1, 2])
      = Except.ok [((1 : ℕ), (7 : ℚ)/2), (2, 3/2)] ∧
    Except.map (fun r => r.mean_ranks)
        (calculate_kruskal_wallis sfZero (1/20) [[(1 : ℚ), 2], [3, 4]] [2, 1])
      = Except.ok [((1 : ℕ), (7 : ℚ)/2), (2, 3/2)] ∧
    ([((1 : ℕ), (7 : ℚ)/2), (2, 3/2)] : List (ℕ × ℚ)) ≠ [(2, 3/2), (1, 7/2)] := by
  refine ⟨?_, ?_, ?_⟩
  · rw [calculate_ok sfZero (1/20) _ _ (by decide)
      (by rw [tieCorrect_of_nodup
        (by decide : (validGroups [[(3 : ℚ), 4], [1, 2]]).flatten.Nodup)]; norm_num)]
    simp only [Except.map]
    norm_num [meanRanks, groupRows, sortKeys, meanOf, rankOf, countLT, countEQ, validGroups,
      validNames, List.filter_cons, List.insertionSort, List.orderedInsert,
      List.dedup_cons_of_mem, List.dedup_cons_of_not_mem]
  · rw [calculate_ok sfZero (1/20) _ _ (by decide)
      (by rw [tieCorrect_of_nodup
        (by decide : (validGroups [[(1 : ℚ), 2], [3, 4]]).flatten.Nodup)]; norm_num)]
    simp only [Except.map]
    norm_num [meanRanks, groupRows, sortKeys, meanOf, rankOf, countLT, countEQ, validGroups,
      validNames, List.filter_cons, List.insertionSort, List.orderedInsert,
      List.dedup_cons_of_mem, List.dedup_cons_of_not_mem]
  · norm_num

/-! The groupby table lists one entry per distinct name, in ascending name
order, not in caller order. -/

theorem mem_rows_fst (pool : List α) :
    ∀ (vgs : List (List α)) (vnames : List β), vnames.length = vgs.length →
      (∀ g ∈ vgs, g ≠ []) → ∀ nm : β,
      (nm ∈ (((vgs.zip vnames).map
          (fun p => p.1.map (fun v => (p.2, rankOf pool v)))).flatten).map Prod.fst
        ↔ nm ∈ vnames) := by
  intro vgs
  induction vgs with
  | nil =>
      intro vnames hlen _ nm
      have h0 : vnames = [] := List.length_eq_zero.mp (by simpa using hlen)
      subst h0
      simp
  | cons g gs ih =>
      intro vnames hlen hne nm
      cases vnames with
      | nil => simp at hlen
      | cons n ns =>
          have hlen' : ns.length = gs.length := by simpa using hlen
          have hg : g ≠ [] := hne g (by simp)
          obtain ⟨x, hx⟩ := List.exists_mem_of_ne_nil g hg
          simp only [List.zip_cons_cons, List.map_cons, List.flatten_cons, List.map_append,
            List.mem_append, List.mem_cons]
          rw [ih ns hlen' (fun y hy => hne y (by simp [hy]))]
          simp only [List.map_map]
          constructor
          · rintro (h | h)
            · obtain ⟨v, hv, he⟩ := List.mem_map.mp h
              exact Or.inl (by exact he.symm)
            · exact Or.inr h
          · rintro (h | h)
            · exact Or.inl (List.mem_map.mpr ⟨x, hx, by exact h.symm⟩)
            · exact Or.inr h

theorem mem_groupRows_fst (vgs : List (List α)) (vnames : List β)
    (hlen : vnames.length = vgs.length) (hne : ∀ g ∈ vgs, g ≠ []) (nm : β) :
    (nm ∈ (groupRows vgs vnames).map Prod.fst ↔ nm ∈ vnames) :=
  mem_rows_fst vgs.flatten vgs vnames hlen hne nm

theorem validNames_length (gd : List (List α)) (names : List β)
    (hlen : names.length = gd.length) :
    (validNames names gd).length = (validGroups gd).length := by
  rw [validNames, validGroups_eq_map_fst gd names hlen]
  simp

/-- Claim C9 amended: the per-group summary list has one entry per distinct
admitted group name and lists them in ascending name order (the key order of
pandas groupby), not in the caller-supplied input order. -/
theorem claim_C9_amended (sf : ℚ → ℤ → ℚ) (alpha : ℚ) (gd : List (List α)) (names : List β)
    (hlen : names.length = gd.length)
    (h2 : 2 ≤ (validGroups gd).length)
    (hC : tieCorrect (validGroups gd).flatten ≠ 0) :
    ∃ r, calculate_kruskal_wallis sf alpha gd names = .ok r ∧
      r.mean_ranks.map Prod.fst = sortKeys (validNames names gd).dedup := by
  refine ⟨_, calculate_ok sf alpha gd names h2 hC, ?_⟩
  show (meanRanks (groupRows (validGroups gd) (validNames names gd))).map Prod.fst
      = sortKeys (validNames names gd).dedup
  rw [meanRanks, List.map_map]
  have hid : (Prod.fst ∘ fun nm : β => (nm,
      meanOf (((groupRows (validGroups gd) (validNames names gd)).filter
        (fun r => decide (r.1 = nm))).map Prod.snd))) = id := funext fun nm => rfl
  rw [hid, List.map_id]
  apply sortKeys_eq_of_perm
  refine (List.perm_ext_iff_of_nodup (List.nodup_dedup _) (List.nodup_dedup _)).mpr ?_
  intro nm
  rw [List.mem_dedup, List.mem_dedup]
  exact mem_groupRows_fst (validGroups gd) (validNames names gd)
    (validNames_length gd names hlen) (fun g hg => validGroups_mem_ne_nil hg) nm

/-- Witness for the amended claim C9 at names supplied in descending order. -/
theorem claim_C9_amended_witness :
    ([2, 1] : List ℕ).length = ([[(1 : ℚ), 2], [3, 4]] : List (List ℚ)).length ∧
    2 ≤ (validGroups [[(1 : ℚ), 2], [3, 4]]).length ∧
    tieCorrect (validGroups [[(1 : ℚ), 2], [3, 4]]).flatten ≠ 0 ∧
    (∃ r, calculate_kruskal_wallis sfZero (1/20) [[(1 : ℚ), 2], [3, 4]] [2, 1] = .ok r ∧
      r.mean_ranks.map Prod.fst = sortKeys (validNames [2, 1] [[(1 : ℚ), 2], [3, 4]]).dedup) :=
  ⟨by decide, by decide,
    by rw [tieCorrect_of_nodup
      (by decide : (validGroups [[(1 : ℚ), 2], [3, 4]]).flatten.Nodup)]; norm_num,
    claim_C9_amended sfZero (1/20) _ _ (by decide) (by decide)
      (by rw [tieCorrect_of_nodup
        (by decide : (validGroups [[(1 : ℚ), 2], [3, 4]]).flatten.Nodup)]; norm_num)⟩

/-- Counterexample to claim C9 as stated: with caller-supplied names [2, 1]
the summary list comes out name-sorted as [1, 2], not in the caller order
[2, 1]. -/
theorem claim_C9_counterexample :
    Except.map (fun r => r.mean_ranks.map Prod.fst)
        (calculate_kruskal_wallis sfZero (1/20) [[(1 : ℚ), 2], [3, 4]] [2, 1])
      = Except.ok [1, 2] ∧
    validNames [2, 1] [[(1 : ℚ), 2], [3, 4]] = [2, 1] ∧
    ([1, 2] : List ℕ) ≠ [2, 1] := by
  refine ⟨?_, by decide, by decide⟩
  rw [calculate_ok sfZero (1/20) _ _ (by decide)
    (by rw [tieCorrect_of_nodup
      (by decide : (validGroups [[(1 : ℚ), 2], [3, 4]]).flatten.Nodup)]; norm_num)]
  simp only [Except.map]
  norm_num [meanRanks, groupRows, sortKeys, meanOf, rankOf, countLT, countEQ, validGroups,
    validNames, List.filter_cons, List.insertionSort, List.orderedInsert,
    List.dedup_cons_of_mem, List.dedup_cons_of_not_mem]

/-! Non-finite observations are not rejected by any validation step. -/

theorem run_analysis_calculate (sf : ℚ → ℤ → ℚ) (alpha : ℚ)
    (gd : List (List α)) (names : List β)
    (hne : ∀ g ∈ gd, g ≠ []) (h2 : 2 ≤ gd.length) :
    run_analysis sf alpha gd names = calculate_kruskal_wallis sf alpha gd names := by
  have hvg : gd.filter (fun g => decide (0 < g.length)) = gd :=
    List.filter_eq_self.mpr (fun g hg => by simpa using List.length_pos.mpr (hne g hg))
  have hfirst : ¬ (gd.filter (fun g => decide (0 < g.length))).length < 2 := by
    rw [hvg]
    omega
  have hsecond : ¬ (gd.any (fun g => decide (g.length = 0)) = true) := by
    intro hcontra
    obtain ⟨g, hg, hg0⟩ := List.any_eq_true.mp hcontra
    have hg0' : g.length = 0 := by simpa using hg0
    exact hne g hg (List.length_eq_zero.mp hg0')
  rw [run_analysis, if_neg hfirst, if_neg hsecond]

theorem run_analysis_ok_of (sf : ℚ → ℤ → ℚ) (alpha : ℚ)
    (gd : List (List α)) (names : List β)
    (hne : ∀ g ∈ gd, g ≠ []) (h2 : 2 ≤ gd.length)
    (hC : tieCorrect (validGroups gd).flatten ≠ 0) :
    ∃ r, run_analysis sf alpha gd names = .ok r := by
  rw [run_analysis_calculate sf alpha gd names hne h2]
  have hvg : validGroups gd = gd :=
    List.filter_eq_self.mpr (fun g hg => by simpa using List.length_pos.mpr (hne g hg))
  have h2' : 2 ≤ (validGroups gd).length := by
    rw [hvg]
    exact h2
  exact ⟨_, calculate_ok sf alpha gd names h2' hC⟩

/-- Claim C5 amended: non-finite observations are not rejected.  An input
whose groups pass the two emptiness checks is processed even when it
contains the non-finite value +infinity (modelled as the top element of
WithTop Rat, which simply ranks above every finite value), and a numeric
result is returned; no InvalidInput failure occurs before pooling. -/
theorem claim_C5_amended (sf : ℚ → ℤ → ℚ) (alpha : ℚ)
    (gd : List (List (WithTop ℚ))) (names : List β)
    (hne : ∀ g ∈ gd, g ≠ []) (h2 : 2 ≤ gd.length)
    (hinf : (⊤ : WithTop ℚ) ∈ gd.flatten)
    (hC : tieCorrect (validGroups gd).flatten ≠ 0) :
    ∃ r, run_analysis sf alpha gd names = .ok r :=
  run_analysis_ok_of sf alpha gd names hne h2 hC

/-- Witness for the amended claim C5 at a group containing +infinity. -/
theorem claim_C5_amended_witness :
    (∀ g ∈ ([[(⊤ : WithTop ℚ)], [(1 : WithTop ℚ)]] : List (List (WithTop ℚ))), g ≠ []) ∧
    2 ≤ ([[(⊤ : WithTop ℚ)], [(1 : WithTop ℚ)]] : List (List (WithTop ℚ))).length ∧
    (⊤ : WithTop ℚ) ∈ ([[(⊤ : WithTop ℚ)], [(1 : WithTop ℚ)]]
        : List (List (WithTop ℚ))).flatten ∧
    tieCorrect (validGroups [[(⊤ : WithTop ℚ)], [(1 : WithTop ℚ)]]).flatten ≠ 0 ∧
    ∃ r, run_analysis sfZero (1/20) [[(⊤ : WithTop ℚ)], [(1 : WithTop ℚ)]] [0, 1] = .ok r :=
  ⟨by decide, by decide, by decide,
    by rw [tieCorrect_of_nodup (by decide :
      (validGroups [[(⊤ : WithTop ℚ)], [(1 : WithTop ℚ)]]).flatten.Nodup)]; norm_num,
    claim_C5_amended sfZero (1/20) _ _ (by decide) (by decide) (by decide)
      (by rw [tieCorrect_of_nodup (by decide :
        (validGroups [[(⊤ : WithTop ℚ)], [(1 : WithTop ℚ)]]).flatten.Nodup)]; norm_num)⟩

/-- Counterexample to claim C5 as stated: an input containing the non-finite
value +infinity passes validation and produces a result; it is not rejected
with InvalidInput before pooling. -/
theorem claim_C5_counterexample :
    (⊤ : WithTop ℚ) ∈ ([[(⊤ : WithTop ℚ)], [(1 : WithTop ℚ)]]
        : List (List (WithTop ℚ))).flatten ∧
    run_analysis sfZero (1/20) [[(⊤ : WithTop ℚ)], [(1 : WithTop ℚ)]] [0, 1]
      ≠ Except.error KWError.invalidInput := by
  refine ⟨by decide, ?_⟩
  obtain ⟨r, hr⟩ := run_analysis_ok_of sfZero (1/20)
    ([[(⊤ : WithTop ℚ)], [(1 : WithTop ℚ)]] : List (List (WithTop ℚ))) [0, 1]
    (by decide) (by decide)
    (by rw [tieCorrect_of_nodup (by decide :
      (validGroups [[(⊤ : WithTop ℚ)], [(1 : WithTop ℚ)]]).flatten.Nodup)]; norm_num)
  rw [hr]
  simp

end KW
